import Mathlib

/-!
Verification of the vibeslurm core behaviors: the squeue-output parser, the
busy-rejecting command dispatcher, the log tailer, the command executor and
the job-output path extraction.  Text is modelled as a list of characters;
the Python string operations used by the source (strip, split, startswith,
substring search, str.split with a separator) are embedded below.
-/

/-- Python whitespace test restricted to the ASCII whitespace characters
(space, tab, newline, carriage return, vertical tab, form feed). -/
def pyWs (c : Char) : Bool :=
  c = ' ' || c = '\t' || c = '\n' || c = '\r' || c = '\x0B' || c = '\x0C'

/-- Right strip: removes trailing whitespace, as in Python rstrip(). -/
def stripR : List Char → List Char
  | [] => []
  | c :: rest =>
    match stripR rest with
    | [] => if pyWs c then [] else [c]
    | d :: t => c :: d :: t

/-- Python str.strip(): drop leading and trailing whitespace. -/
def pyStrip (s : List Char) : List Char := stripR (s.dropWhile pyWs)

/-- Python text.split("\n"): split on each newline, keeping empty pieces. -/
def splitLines : List Char → List (List Char)
  | [] => [[]]
  | c :: rest =>
    if c = '\n' then [] :: splitLines rest
    else
      match splitLines rest with
      | [] => [[c]]
      | l :: ls => (c :: l) :: ls

/-- Worker for whitespace splitting, carrying the current token reversed. -/
def splitWsGo : List Char → List Char → List (List Char)
  | cur, [] => if cur.isEmpty then [] else [cur.reverse]
  | cur, c :: rest =>
    if pyWs c then
      if cur.isEmpty then splitWsGo [] rest else cur.reverse :: splitWsGo [] rest
    else splitWsGo (c :: cur) rest

/-- Python str.split() with no argument: maximal runs of non-whitespace. -/
def splitWs (s : List Char) : List (List Char) := splitWsGo [] s

/-- Python str.isdigit, restricted to ASCII digits; empty string is not a digit string. -/
def pyIsdigit (s : List Char) : Bool := !s.isEmpty && s.all (fun c => c.isDigit)

/-- Python " ".join(parts). -/
def joinSpaces (parts : List (List Char)) : List Char := List.intercalate [' '] parts

/-- Python substring test: needle in hay. -/
def containsSub (needle : List Char) : List Char → Bool
  | [] => needle.isEmpty
  | c :: rest => needle.isPrefixOf (c :: rest) || containsSub needle rest

/-- Fuelled worker for Python str.split(sep) with a non-empty separator. -/
def splitOnF (sep : List Char) : Nat → List Char → List (List Char)
  | _, [] => [[]]
  | 0, s => [s]
  | fuel + 1, c :: rest =>
    if !sep.isEmpty && sep.isPrefixOf (c :: rest) then
      [] :: splitOnF sep fuel ((c :: rest).drop sep.length)
    else
      match splitOnF sep fuel rest with
      | [] => [[c]]
      | p :: ps => (c :: p) :: ps

/-- Python str.split(sep): split on the leftmost occurrences of sep. -/
def splitOnL (sep s : List Char) : List (List Char) := splitOnF sep s.length s

/-- The literal column label marking the squeue header line. -/
def strJOBID : List Char := "JOBID".data

/-- One parsed row of the job table (gui.py, populate_job_ids). -/
structure JobRow where
  job_id : List Char
  partition : List Char
  name : List Char
  user : List Char
  state : List Char
  time : List Char
  nodes : List Char
  nodelist : List Char
deriving DecidableEq

/-- The per-line body of MainWindow.populate_job_ids (gui.py lines 440-485)
applied to an already stripped line: skip empty lines and lines starting
with the JOBID label, require at least 8 whitespace tokens and an all-digit
first token, and build the row (tokens 7 onwards joined with single spaces). -/
def parseCore (line : List Char) : Option JobRow :=
  if line.isEmpty then none
  else if strJOBID.isPrefixOf line then none
  else
    let parts := splitWs line
    if 8 ≤ parts.length then
      if pyIsdigit (parts.getD 0 []) then
        some { job_id := parts.getD 0 [], partition := parts.getD 1 [],
               name := parts.getD 2 [], user := parts.getD 3 [],
               state := parts.getD 4 [], time := parts.getD 5 [],
               nodes := parts.getD 6 [], nodelist := joinSpaces (parts.drop 7) }
      else none
    else none

/-- One loop iteration of populate_job_ids: the raw line is stripped first. -/
def parseLine (rawLine : List Char) : Option JobRow := parseCore (pyStrip rawLine)

/-- MainWindow.populate_job_ids (gui.py lines 430-493): strip the whole
output, split into lines, and turn each acceptable line into a JobRow,
preserving input order. -/
def populate_job_ids (text : List Char) : List JobRow :=
  (splitLines (pyStrip text)).filterMap parseLine

/-- Specification-side description of one data row (spec 4.3): token 0 is
the job identifier, tokens 1 to 6 map positionally to partition, name,
user, state, time and nodes, and tokens 7 onwards are rejoined with single
spaces into the node-list field. -/
def specRowOfLine (l : List Char) : JobRow :=
  let toks := splitWs (pyStrip l)
  { job_id := toks.getD 0 [], partition := toks.getD 1 [],
    name := toks.getD 2 [], user := toks.getD 3 [],
    state := toks.getD 4 [], time := toks.getD 5 [],
    nodes := toks.getD 6 [], nodelist := joinSpaces (toks.drop 7) }

-- Sample strings used by concrete instantiations.

/-- The squeue header line of the specification's sample listing. -/
def sampleHeader : List Char := "JOBID PARTITION NAME USER ST TIME NODES NODELIST".data

/-- The data line of the specification's sample listing. -/
def sampleData : List Char := "123 gpu myjob alice R 1:23 2 node[01-02]".data

/-! ### Output tailer (gui.py, LogTailDialog) -/

/-- Outcome of one attempt to stat and read a tailed file on a poll tick. -/
inductive FsRead
  | ok (content : List Char)
  | absent
  | failed (msg : List Char)
deriving DecidableEq

/-- Per-stream state of a tail session: the stored byte offset, the blocks
of text appended to the display so far, and the display placeholder text. -/
structure TailStream where
  pos : Nat
  chunks : List (List Char)
  placeholder : List Char
deriving DecidableEq

/-- Message prefix used when a read fails (gui.py line 144). -/
def errReadingFile : List Char := "Error reading file: ".data

/-- Initial placeholder of the stdout pane (gui.py line 80). -/
def waitingOutput : List Char := "Waiting for output...".data

/-- Initial placeholder of the stderr pane (gui.py line 103). -/
def waitingErrors : List Char := "Waiting for errors...".data

/-- One stream update of LogTailDialog.update_logs (gui.py lines 119-169):
with no path, do nothing; otherwise read from the stored offset to the end
of the current file content, append the freshly read text (right-stripped)
as one block and advance the offset to the end position; a missing file is
ignored; any other failure sets the placeholder, but only while the offset
is still zero.  The second component is the newly read text. -/
def updateStream (path : Option (List Char)) (r : FsRead) (s : TailStream) :
    TailStream × List Char :=
  match path with
  | none => (s, [])
  | some _ =>
    match r with
    | .ok content =>
      let new_content := content.drop s.pos
      if new_content.isEmpty then (s, [])
      else
        ({ s with
            chunks := s.chunks ++ [stripR new_content],
            pos := content.length }, new_content)
    | .absent => (s, [])
    | .failed m =>
      if s.pos = 0 then ({ s with placeholder := errReadingFile ++ m }, [])
      else (s, [])

/-- Folding a sequence of poll-tick read outcomes over one stream. -/
def runStream (path : Option (List Char)) (evs : List FsRead) (s : TailStream) :
    TailStream :=
  evs.foldl (fun st e => (updateStream path e st).1) s

/-- State of one LogTailDialog: the two optional file paths fixed at
construction and the two independent stream states. -/
structure LogTailState where
  stdout_path : Option (List Char)
  stderr_path : Option (List Char)
  outS : TailStream
  errS : TailStream
deriving DecidableEq

/-- LogTailDialog.__init__ (gui.py lines 38-51): both offsets start at 0. -/
def initLogTail (op ep : Option (List Char)) : LogTailState :=
  { stdout_path := op, stderr_path := ep,
    outS := { pos := 0, chunks := [], placeholder := waitingOutput },
    errS := { pos := 0, chunks := [], placeholder := waitingErrors } }

/-- One full update_logs tick: the stdout section, then the stderr section. -/
def update_logs (rOut rErr : FsRead) (st : LogTailState) : LogTailState :=
  { st with outS := (updateStream st.stdout_path rOut st.outS).1,
            errS := (updateStream st.stderr_path rErr st.errS).1 }

/-- Folding a sequence of poll ticks over a dialog state. -/
def runLogs (evs : List (FsRead × FsRead)) (st : LogTailState) : LogTailState :=
  evs.foldl (fun s e => update_logs e.1 e.2 s) st

/-! ### Command dispatcher (gui.py, MainWindow.run_slurm_command) -/

/-- The busy notice of gui.py line 358. -/
def msgAlreadyRunning : List Char := "⚠️ A command is already running...\n".data

/-- A worker thread reference: its identity and whether it is running. -/
structure WorkerRef where
  id : Nat
  running : Bool
deriving DecidableEq

/-- The dispatcher-relevant state of MainWindow: the current worker (if
any), the name of the command in flight, the console transcript, and the
number of worker threads ever started. -/
structure MainWindowState where
  worker : Option WorkerRef
  current_command : Option (List Char)
  console : List (List Char)
  spawned : Nat
deriving DecidableEq

/-- The guard of gui.py line 357: self.worker and self.worker.isRunning(). -/
def dispatchBusy (st : MainWindowState) : Bool :=
  match st.worker with
  | some w => w.running
  | none => false

/-- MainWindow.run_slurm_command (gui.py lines 355-366): when busy, append
the busy notice and return, touching nothing else; otherwise record the
command name and create and start a fresh worker. -/
def run_slurm_command (st : MainWindowState) (command_name : List Char) :
    MainWindowState :=
  if dispatchBusy st then
    { st with console := st.console ++ [msgAlreadyRunning] }
  else
    { worker := some { id := st.spawned, running := true },
      current_command := some command_name,
      console := st.console,
      spawned := st.spawned + 1 }

/-! ### Command executor (slurm.py, SlurmCommands) -/

/-- Environment facts about one external command invocation: whether the
program exists on the search path, whether the spawn or wait faults for
some other reason, how long the process would run, and its outputs. -/
structure ProcWorld where
  found : Bool
  fault : Option (List Char)
  duration : Nat
  out : List Char
  err : List Char
  code : Int
deriving DecidableEq

/-- What a subprocess.run call reports back. -/
inductive SpawnBehavior
  | completed (out err : List Char) (code : Int)
  | timedOut
  | fnf
  | failed (msg : List Char)
deriving DecidableEq

/-- Result of the spawn facility: the reported behavior, whether the child
process is still running afterwards, and how many processes were spawned. -/
structure SpawnEffect where
  behavior : SpawnBehavior
  stillRunning : Bool
  spawnedProcesses : Nat
deriving DecidableEq

/-- Modelled from the spec: the process-spawn facility used by
SlurmCommands.run_command (subprocess.run with capture_output and a
timeout) is not part of this repository.  Per spec 4.1 and 5, a missing
program spawns nothing and reports not-found; otherwise exactly one
process is spawned; if it exceeds the bound the child is terminated, not
left running, and a timeout is reported; any other spawn or wait failure
carries its message; otherwise the captured outputs and exit status are
returned.  No outcome leaves the child running after the call. -/
def subprocessRun (timeLimit : Nat) (w : ProcWorld) : SpawnEffect :=
  if !w.found then { behavior := .fnf, stillRunning := false, spawnedProcesses := 0 }
  else
    match w.fault with
    | some m => { behavior := .failed m, stillRunning := false, spawnedProcesses := 1 }
    | none =>
      if timeLimit < w.duration then
        { behavior := .timedOut, stillRunning := false, spawnedProcesses := 1 }
      else
        { behavior := .completed w.out w.err w.code, stillRunning := false,
          spawnedProcesses := 1 }

/-- Message prefix of the timeout error (slurm.py line 35). -/
def preTimedOut : List Char := "Command timed out: ".data

/-- Message prefix of the missing-program error (slurm.py line 37). -/
def preNotFound : List Char := "Command not found: ".data

/-- Message prefix of the catch-all error (slurm.py line 39). -/
def preUnexpected : List Char := "Error running command: ".data

/-- SlurmCommands.run_command (slurm.py lines 15-39): run the command with
a 30 second timeout and return (stdout, stderr, returncode), or raise a
SlurmError whose message distinguishes timeout, missing program, and any
other failure. -/
def run_command (command : List (List Char)) (w : ProcWorld) :
    Except (List Char) (List Char × List Char × Int) :=
  match (subprocessRun 30 w).behavior with
  | .completed o e c => .ok (o, e, c)
  | .timedOut => .error (preTimedOut ++ joinSpaces command)
  | .fnf => .error (preNotFound ++ command.headD [])
  | .failed m => .error (preUnexpected ++ m)

/-- The scancel program name. -/
def strScancel : List Char := "scancel".data

/-- The -u flag. -/
def strDashU : List Char := "-u".data

/-- Prefix of the scancel failure message (slurm.py lines 95, 111). -/
def scancelFailedPre : List Char := "scancel failed: ".data

/-- Pieces of the generated cancel confirmation (slurm.py line 96). -/
def msgJobPre : List Char := "Job ".data

/-- Suffix of the generated cancel confirmations (slurm.py lines 96, 112). -/
def msgCancelSuf : List Char := " cancelled successfully".data

/-- Prefix of the generated cancel-all confirmation (slurm.py line 112). -/
def msgAllPre : List Char := "All jobs for user ".data

/-- SlurmCommands.scancel (slurm.py lines 82-96): run scancel, fail on a
non-zero exit status, and on success return stdout, or a generated
confirmation embedding the job id when stdout is empty. -/
def scancel (job_id : List Char) (w : ProcWorld) : Except (List Char) (List Char) :=
  match run_command [strScancel, job_id] w with
  | .error m => .error m
  | .ok (out, err, rc) =>
    if rc ≠ 0 then .error (scancelFailedPre ++ err)
    else .ok (if out.isEmpty then msgJobPre ++ job_id ++ msgCancelSuf else out)

/-- SlurmCommands.scancel_all (slurm.py lines 98-112): as scancel, with a
generated confirmation embedding the username when stdout is empty. -/
def scancel_all (user : List Char) (w : ProcWorld) : Except (List Char) (List Char) :=
  match run_command [strScancel, strDashU, user] w with
  | .error m => .error m
  | .ok (out, err, rc) =>
    if rc ≠ 0 then .error (scancelFailedPre ++ err)
    else .ok (if out.isEmpty then msgAllPre ++ user ++ msgCancelSuf else out)

/-! ### Job output path extraction (slurm.py, get_job_output_files) -/

/-- Result of running a piece of Python code: a value, or an uncaught
exception (here only IndexError can escape). -/
inductive PyResult (α : Type)
  | ok (val : α)
  | exn (name : List Char)
deriving DecidableEq

/-- The StdOut= marker. -/
def strStdOutEq : List Char := "StdOut=".data

/-- The StdErr= marker. -/
def strStdErrEq : List Char := "StdErr=".data

/-- The name of the exception raised by indexing an empty list. -/
def strIndexError : List Char := "IndexError".data

/-- The loop body of SlurmCommands.get_job_output_files (slurm.py lines
160-169) for one marker: strip the line; if the marker occurs in it, split
on the marker and take the first whitespace token of the piece after the
first occurrence; indexing fails when that piece holds no token. -/
def markerUpdate (marker : List Char) (line : List Char)
    (acc : Option (List Char)) : PyResult (Option (List Char)) :=
  if containsSub marker line then
    let parts := splitOnL marker line
    if 1 < parts.length then
      match splitWs (parts.getD 1 []) with
      | [] => .exn strIndexError
      | t :: _ => .ok (some t)
    else .ok acc
  else .ok acc

/-- One iteration of the loop in get_job_output_files: the StdOut= marker
is handled first, then the StdErr= marker, on the stripped line. -/
def extractStep (acc : Option (List Char) × Option (List Char))
    (rawLine : List Char) : PyResult (Option (List Char) × Option (List Char)) :=
  let line := pyStrip rawLine
  match markerUpdate strStdOutEq line acc.1 with
  | .exn e => .exn e
  | .ok a1 =>
    match markerUpdate strStdErrEq line acc.2 with
    | .exn e => .exn e
    | .ok a2 => .ok (a1, a2)

/-- The loop of get_job_output_files over the lines, with exception
propagation. -/
def extractLoop : List (List Char) →
    Option (List Char) × Option (List Char) →
    PyResult (Option (List Char) × Option (List Char))
  | [], acc => .ok acc
  | l :: ls, acc =>
    match extractStep acc l with
    | .exn e => .exn e
    | .ok a => extractLoop ls a

/-- The path-extraction part of SlurmCommands.get_job_output_files
(slurm.py lines 156-171), as a function of the scontrol detail text:
split into lines and scan each for the two markers, starting from
(None, None). -/
def extractOutputFiles (output : List Char) :
    PyResult (Option (List Char) × Option (List Char)) :=
  extractLoop (splitLines output) (none, none)

/-- The value one line contributes for one marker: the first whitespace
token of the piece after the line's first marker occurrence, if any. -/
def lineTok (marker l : List Char) : Option (List Char) :=
  match splitOnL marker (pyStrip l) with
  | _ :: second :: _ => (splitWs second).head?
  | _ => none

/-- Right fold keeping the last some value, with a default. -/
def lastSomeD (v : Option (List Char)) (opts : List (Option (List Char))) :
    Option (List Char) :=
  opts.foldl (fun a o => o.orElse (fun _ => a)) v

/-- A line is safe for one marker when the marker is absent from the
stripped line, or the piece after the first occurrence holds at least one
non-whitespace character. -/
def lineMarkerOk (marker line : List Char) : Bool :=
  !containsSub marker (pyStrip line)
    || ((splitOnL marker (pyStrip line)).getD 1 []).any (fun c => !pyWs c)

/-- Sufficient precondition for extraction not to raise: every line is
safe for both markers. -/
def extractPre (t : List Char) : Bool :=
  (splitLines t).all (fun l => lineMarkerOk strStdOutEq l && lineMarkerOk strStdErrEq l)

/-- The precondition as claimed: every occurrence of the marker in the
text is immediately followed by a non-whitespace character. -/
def occImmediateOk (sep : List Char) : List Char → Bool
  | [] => true
  | c :: rest =>
    (if sep.isPrefixOf (c :: rest) then
      match (c :: rest).drop sep.length with
      | [] => false
      | d :: _ => !pyWs d
    else true) && occImmediateOk sep rest

-- Further sample strings used by concrete instantiations.

/-- A detail line whose marker occurs twice on the same line. -/
def cxTwoMarkers : List Char := "StdOut=/p1 StdOut=/p2".data

/-- First path of the double-marker sample. -/
def sampleP1 : List Char := "/p1".data

/-- Second path of the double-marker sample. -/
def sampleP2 : List Char := "/p2".data

/-- A detail text whose marker is immediately followed by a second marker. -/
def cxMarkerMarker : List Char := "StdOut=StdOut=x".data

/-- A detail text that is a bare marker. -/
def cxBareMarker : List Char := "StdOut=".data

/-- The sample detail stdout line of spec section 8. -/
def sampleOutLine : List Char := "   StdOut=/home/alice/job.out".data

/-- The sample detail stderr line of spec section 8. -/
def sampleErrLine : List Char := "   StdErr=/home/alice/job.err".data

/-- The stdout path of the sample detail text. -/
def sampleOutPath : List Char := "/home/alice/job.out".data

/-- The stderr path of the sample detail text. -/
def sampleErrPath : List Char := "/home/alice/job.err".data

/-- Sample appended bytes ending in a newline. -/
def sampleBNl : List Char := "b\n".data

/-- Sample appended bytes without the trailing newline. -/
def sampleB : List Char := "b".data

/-- A sample file path. -/
def samplePath : List Char := "/o".data

/-- Sample file content. -/
def sampleHello : List Char := "hello".data

/-- Sample failure message. -/
def sampleDenied : List Char := "denied".data

/-- Sample program name. -/
def strSqueue : List Char := "squeue".data

/-- Sample user name. -/
def sampleUser : List Char := "alice".data

/-- Sample stderr text. -/
def sampleBoom : List Char := "boom".data

/-- Sample job identifier. -/
def sampleJobId : List Char := "123".data

/-- A line is good for one marker when the marker does not occur in the
stripped line, or the marker splits the stripped line into exactly two
pieces and the second piece starts with a non-whitespace character (the
marker occurs exactly once, immediately followed by non-whitespace). -/
def goodLineB (marker l : List Char) : Bool :=
  !containsSub marker (pyStrip l) ||
    (match splitOnL marker (pyStrip l) with
     | [_, c :: _] => !pyWs c
     | _ => false)

/-! ### Lemmas about stripping -/

theorem stripR_nil : stripR [] = [] := rfl

theorem stripR_cons (c : Char) (r : List Char) :
    stripR (c :: r) = match stripR r with
      | [] => if pyWs c then [] else [c]
      | d :: t => c :: d :: t := rfl

theorem getD_zero (l : List (List Char)) : l.getD 0 [] = l.headD [] := by
  cases l <;> rfl

theorem dropWhile_pyWs_idem (l : List Char) :
    (l.dropWhile pyWs).dropWhile pyWs = l.dropWhile pyWs := by
  induction l with
  | nil => rfl
  | cons c r ih =>
    cases hw : pyWs c with
    | true => rw [List.dropWhile_cons_of_pos hw]; exact ih
    | false =>
      rw [List.dropWhile_cons_of_neg (by simp [hw]),
        List.dropWhile_cons_of_neg (by simp [hw])]

theorem dropWhile_append_left (a b : List Char) (ha : ∃ c ∈ a, pyWs c = false) :
    (a ++ b).dropWhile pyWs = a.dropWhile pyWs ++ b := by
  rw [List.dropWhile_append]
  have hne : ¬ (a.dropWhile pyWs).isEmpty = true := by
    obtain ⟨c, hc, hcw⟩ := ha
    intro h
    have hnil : a.dropWhile pyWs = [] := by
      cases he : a.dropWhile pyWs with
      | nil => rfl
      | cons x t => rw [he] at h; cases h
    have := List.dropWhile_eq_nil_iff.mp hnil c hc
    rw [hcw] at this; cases this
  rw [if_neg hne]

theorem stripR_eq_nil_iff (l : List Char) :
    stripR l = [] ↔ ∀ c ∈ l, pyWs c = true := by
  induction l with
  | nil => simp [stripR_nil]
  | cons c r ih =>
    cases hr : stripR r with
    | nil =>
      have hall : ∀ x ∈ r, pyWs x = true := ih.mp hr
      cases hw : pyWs c with
      | true =>
        simp only [stripR_cons, hr, hw, if_true]
        constructor
        · intro _ x hx
          rcases List.mem_cons.mp hx with h | h
          · subst h; exact hw
          · exact hall x h
        · intro _; trivial
      | false =>
        simp only [stripR_cons, hr, hw]
        constructor
        · intro h; simp at h
        · intro h
          have hc := h c (List.mem_cons_self c r)
          rw [hw] at hc; cases hc
    | cons d t =>
      simp only [stripR_cons, hr]
      constructor
      · intro h; simp at h
      · intro h
        have : stripR r = [] := ih.mpr (fun x hx => h x (List.mem_cons_of_mem c hx))
        rw [hr] at this; cases this

theorem stripR_ne_nil (l : List Char) (h : ∃ c ∈ l, pyWs c = false) :
    stripR l ≠ [] := by
  intro hn
  obtain ⟨c, hc, hcw⟩ := h
  have := (stripR_eq_nil_iff l).mp hn c hc
  rw [hcw] at this; cases this

theorem stripR_append (a b : List Char) (hb : ∃ c ∈ b, pyWs c = false) :
    stripR (a ++ b) = a ++ stripR b := by
  induction a with
  | nil => rfl
  | cons x a ih =>
    have habne : stripR (a ++ b) ≠ [] := by
      rw [ih]
      intro h
      exact stripR_ne_nil b hb (List.append_eq_nil.mp h).2
    cases hab : stripR (a ++ b) with
    | nil => exact absurd hab habne
    | cons d t =>
      have h1 : stripR (x :: (a ++ b)) = x :: (d :: t) := by
        rw [stripR_cons, hab]
      rw [List.cons_append, h1, ← hab, ih, List.cons_append]

theorem stripR_cons_eq (d c : Char) (u t : List Char)
    (h : stripR (d :: u) = c :: t) : c = d := by
  rw [stripR_cons] at h
  cases hu : stripR u with
  | nil =>
    rw [hu] at h
    cases hw : pyWs d with
    | true => rw [hw] at h; simp at h
    | false =>
      rw [hw] at h
      simp only [Bool.false_eq_true, if_false] at h
      injection h with h1 h2
      exact h1.symm
  | cons e w =>
    rw [hu] at h
    injection h with h1 h2
    exact h1.symm

theorem stripR_idem (l : List Char) : stripR (stripR l) = stripR l := by
  induction l with
  | nil => rfl
  | cons c r ih =>
    cases hr : stripR r with
    | nil =>
      cases hw : pyWs c with
      | true => simp [stripR_cons, hr, hw, stripR_nil]
      | false => simp [stripR_cons, hr, hw, stripR_nil]
    | cons d t =>
      have h1 : stripR (c :: r) = c :: d :: t := by rw [stripR_cons, hr]
      have h2 : stripR (d :: t) = d :: t := by rw [← hr, ih, hr]
      rw [h1, stripR_cons, h2]

theorem dropWhile_stripR_comm (l : List Char) :
    (stripR l).dropWhile pyWs = stripR (l.dropWhile pyWs) := by
  induction l with
  | nil => rfl
  | cons c r ih =>
    cases hw : pyWs c with
    | true =>
      cases hr : stripR r with
      | nil =>
        have h1 : stripR (c :: r) = [] := by simp [stripR_cons, hr, hw]
        have hdr : r.dropWhile pyWs = [] :=
          List.dropWhile_eq_nil_iff.mpr ((stripR_eq_nil_iff r).mp hr)
        rw [h1, List.dropWhile_nil, List.dropWhile_cons_of_pos hw, hdr, stripR_nil]
      | cons d t =>
        have h1 : stripR (c :: r) = c :: d :: t := by rw [stripR_cons, hr]
        rw [h1, List.dropWhile_cons_of_pos hw, ← hr, ih,
          List.dropWhile_cons_of_pos hw]
    | false =>
      have hne : ¬ pyWs c = true := by simp [hw]
      cases hr : stripR r with
      | nil =>
        have h1 : stripR (c :: r) = [c] := by simp [stripR_cons, hr, hw]
        rw [h1, List.dropWhile_cons_of_neg hne, List.dropWhile_cons_of_neg hne, h1]
      | cons d t =>
        have h1 : stripR (c :: r) = c :: d :: t := by rw [stripR_cons, hr]
        rw [h1, List.dropWhile_cons_of_neg hne, List.dropWhile_cons_of_neg hne, h1]

theorem pyStrip_dropWhile (l : List Char) :
    pyStrip (l.dropWhile pyWs) = pyStrip l := by
  simp only [pyStrip, dropWhile_pyWs_idem]

theorem pyStrip_stripR (l : List Char) : pyStrip (stripR l) = pyStrip l := by
  rw [pyStrip, pyStrip, dropWhile_stripR_comm, stripR_idem]

theorem pyStrip_idem (l : List Char) : pyStrip (pyStrip l) = pyStrip l := by
  have h := pyStrip_stripR (List.dropWhile pyWs l)
  rw [pyStrip_dropWhile] at h
  exact h

theorem pyStrip_eq_nil_iff (l : List Char) :
    pyStrip l = [] ↔ ∀ c ∈ l, pyWs c = true := by
  induction l with
  | nil => simp [pyStrip, stripR_nil]
  | cons c r ih =>
    cases hw : pyWs c with
    | true =>
      simp only [pyStrip, List.dropWhile_cons_of_pos hw]
      simp only [pyStrip] at ih
      rw [ih]
      constructor
      · intro h x hx
        rcases List.mem_cons.mp hx with h1 | h1
        · subst h1; exact hw
        · exact h x h1
      · intro h x hx; exact h x (List.mem_cons_of_mem c hx)
    | false =>
      have hne : ¬ pyWs c = true := by simp [hw]
      simp only [pyStrip, List.dropWhile_cons_of_neg hne]
      constructor
      · intro h
        exact absurd ((stripR_eq_nil_iff _).mp h c (List.mem_cons_self c r))
          (by simp [hw])
      · intro h
        exact absurd (h c (List.mem_cons_self c r)) (by simp [hw])

theorem dropWhile_head_false (l : List Char) (d : Char) (u : List Char)
    (h : l.dropWhile pyWs = d :: u) : pyWs d = false := by
  induction l with
  | nil => cases h
  | cons c r ih =>
    cases hw : pyWs c with
    | true => rw [List.dropWhile_cons_of_pos hw] at h; exact ih h
    | false =>
      rw [List.dropWhile_cons_of_neg (by simp [hw])] at h
      injection h with h1 h2
      rw [← h1]; exact hw

theorem pyStrip_head_not_ws (l : List Char) (c : Char) (t : List Char)
    (h : pyStrip l = c :: t) : pyWs c = false := by
  rw [pyStrip] at h
  cases hd : l.dropWhile pyWs with
  | nil => rw [hd] at h; cases h
  | cons d u =>
    rw [hd] at h
    rw [stripR_cons_eq d c u t h]
    exact dropWhile_head_false l d u hd

/-! ### Lemmas about line splitting -/

theorem splitLines_nil : splitLines [] = [[]] := rfl

theorem splitLines_cons (c : Char) (r : List Char) :
    splitLines (c :: r) =
      if c = '\n' then [] :: splitLines r
      else match splitLines r with
        | [] => [[c]]
        | l :: ls => (c :: l) :: ls := rfl

theorem splitLines_ne_nil (l : List Char) : splitLines l ≠ [] := by
  induction l with
  | nil => simp [splitLines_nil]
  | cons c r ih =>
    rw [splitLines_cons]
    by_cases h : c = '\n'
    · simp [h]
    · rw [if_neg h]
      cases hr : splitLines r with
      | nil => simp
      | cons x xs => simp

theorem splitLines_no_nl (l : List Char) (h : '\n' ∉ l) : splitLines l = [l] := by
  induction l with
  | nil => rfl
  | cons c r ih =>
    have hc : ¬ c = '\n' := by
      intro he; exact h (he ▸ List.mem_cons_self c r)
    have hr : splitLines r = [r] := ih (fun hm => h (List.mem_cons_of_mem c hm))
    rw [splitLines_cons, if_neg hc, hr]

theorem splitLines_append (l r : List Char) (h : '\n' ∉ l) :
    splitLines (l ++ '\n' :: r) = l :: splitLines r := by
  induction l with
  | nil => simp [splitLines_cons]
  | cons c l ih =>
    have hc : ¬ c = '\n' := by
      intro he; exact h (he ▸ List.mem_cons_self c l)
    have hl : splitLines (l ++ '\n' :: r) = l :: splitLines r :=
      ih (fun hm => h (List.mem_cons_of_mem c hm))
    rw [List.cons_append, splitLines_cons, if_neg hc, hl]

theorem intercalate_cons_cons (s a b : List Char) (t : List (List Char)) :
    List.intercalate s (a :: b :: t) = a ++ s ++ List.intercalate s (b :: t) := by
  simp [List.intercalate, List.intersperse]

theorem intercalate_single (s a : List Char) : List.intercalate s [a] = a := by
  simp [List.intercalate]

theorem splitLines_intercalate (ls : List (List Char)) (hne : ls ≠ [])
    (h : ∀ l ∈ ls, '\n' ∉ l) : splitLines (List.intercalate ['\n'] ls) = ls := by
  induction ls with
  | nil => exact absurd rfl hne
  | cons a t ih =>
    cases t with
    | nil =>
      rw [intercalate_single]
      exact splitLines_no_nl a (h a (List.mem_cons_self a []))
    | cons b t2 =>
      have hih : splitLines (List.intercalate ['\n'] (b :: t2)) = b :: t2 :=
        ih (by simp) (fun l hl => h l (List.mem_cons_of_mem a hl))
      rw [intercalate_cons_cons, List.append_assoc, List.singleton_append,
        splitLines_append a _ (h a (List.mem_cons_self a _)), hih]

/-! ### Lemmas about whitespace splitting -/

theorem splitWsGo_nil (cur : List Char) :
    splitWsGo cur [] = if cur.isEmpty then [] else [cur.reverse] := rfl

theorem splitWsGo_cons (cur : List Char) (c : Char) (rest : List Char) :
    splitWsGo cur (c :: rest) =
      if pyWs c then
        if cur.isEmpty then splitWsGo [] rest else cur.reverse :: splitWsGo [] rest
      else splitWsGo (c :: cur) rest := rfl

theorem splitWs_nil : splitWs [] = [] := rfl

theorem splitWsGo_ne_nil (t : List Char) (cur : List Char) (hc : cur ≠ []) :
    splitWsGo cur t =
      (cur.reverse ++ t.takeWhile (fun d => !pyWs d)) ::
        splitWs (t.dropWhile (fun d => !pyWs d)) := by
  induction t generalizing cur with
  | nil =>
    have : ¬ cur.isEmpty = true := by
      cases cur with
      | nil => exact absurd rfl hc
      | cons x xs => simp
    rw [splitWsGo_nil, if_neg this]
    simp [splitWs_nil]
  | cons c rest ih =>
    cases hw : pyWs c with
    | true =>
      have hcur : ¬ cur.isEmpty = true := by
        cases cur with
        | nil => exact absurd rfl hc
        | cons x xs => simp
      rw [splitWsGo_cons, if_pos hw, if_neg hcur]
      have ht : List.takeWhile (fun d => !pyWs d) (c :: rest) = [] := by
        rw [List.takeWhile_cons]
        simp [hw]
      have hd : List.dropWhile (fun d => !pyWs d) (c :: rest) = c :: rest := by
        rw [List.dropWhile_cons_of_neg]
        simp [hw]
      rw [ht, hd, List.append_nil]
      have : splitWs (c :: rest) = splitWsGo [] rest := by
        rw [splitWs, splitWsGo_cons, if_pos hw]
        simp
      rw [this]
    | false =>
      rw [splitWsGo_cons, if_neg (by simp [hw])]
      rw [ih (c :: cur) (by simp)]
      have ht : List.takeWhile (fun d => !pyWs d) (c :: rest) =
          c :: List.takeWhile (fun d => !pyWs d) rest := by
        rw [List.takeWhile_cons_of_pos]
        simp [hw]
      have hd : List.dropWhile (fun d => !pyWs d) (c :: rest) =
          List.dropWhile (fun d => !pyWs d) rest := by
        rw [List.dropWhile_cons_of_pos]
        simp [hw]
      rw [ht, hd, List.reverse_cons, List.append_assoc, List.cons_append,
        List.nil_append]

theorem splitWs_cons_not_ws (c : Char) (t : List Char) (hw : pyWs c = false) :
    splitWs (c :: t) =
      (c :: t.takeWhile (fun d => !pyWs d)) ::
        splitWs (t.dropWhile (fun d => !pyWs d)) := by
  rw [splitWs, splitWsGo_cons, if_neg (by simp [hw]),
    splitWsGo_ne_nil t [c] (by simp)]
  rfl

theorem splitWs_cons_ws (c : Char) (t : List Char) (hw : pyWs c = true) :
    splitWs (c :: t) = splitWs t := by
  rw [splitWs, splitWsGo_cons, if_pos hw]
  simp [splitWs]

theorem splitWs_eq_nil_iff (s : List Char) :
    splitWs s = [] ↔ ∀ c ∈ s, pyWs c = true := by
  induction s with
  | nil => simp [splitWs_nil]
  | cons c t ih =>
    cases hw : pyWs c with
    | true =>
      rw [splitWs_cons_ws c t hw, ih]
      constructor
      · intro h x hx
        rcases List.mem_cons.mp hx with h1 | h1
        · subst h1; exact hw
        · exact h x h1
      · intro h x hx; exact h x (List.mem_cons_of_mem c hx)
    | false =>
      rw [splitWs_cons_not_ws c t hw]
      constructor
      · intro h; simp at h
      · intro h
        have := h c (List.mem_cons_self c t)
        rw [hw] at this; cases this

theorem splitWs_head_of_cons (c : Char) (t : List Char) (hw : pyWs c = false) :
    (splitWs (c :: t)).headD [] = c :: t.takeWhile (fun d => !pyWs d) := by
  rw [splitWs_cons_not_ws c t hw]
  rfl

/-! ### Strip and intercalate -/

theorem mem_intercalate_last (c : Char) (b : List Char) (init : List (List Char))
    (hc : c ∈ b) : c ∈ List.intercalate ['\n'] (init ++ [b]) := by
  induction init with
  | nil => rw [List.nil_append, intercalate_single]; exact hc
  | cons x t ih =>
    have hne : (t ++ [b]) ≠ [] := by simp
    cases he : t ++ [b] with
    | nil => exact absurd he hne
    | cons y ys =>
      rw [List.cons_append, he, intercalate_cons_cons, ← he]
      exact List.mem_append_right _ ih

theorem stripR_intercalate_concat (init : List (List Char)) (b : List Char)
    (hb : ∃ c ∈ b, pyWs c = false) :
    stripR (List.intercalate ['\n'] (init ++ [b])) =
      List.intercalate ['\n'] (init ++ [stripR b]) := by
  induction init with
  | nil => rw [List.nil_append, List.nil_append, intercalate_single, intercalate_single]
  | cons x t ih =>
    have hne : (t ++ [b]) ≠ [] := by simp
    cases he : t ++ [b] with
    | nil => exact absurd he hne
    | cons y ys =>
      have hmem : ∃ c ∈ '\n' :: List.intercalate ['\n'] (t ++ [b]), pyWs c = false := by
        obtain ⟨c, hc, hcw⟩ := hb
        exact ⟨c, List.mem_cons_of_mem _ (mem_intercalate_last c b t hc), hcw⟩
      have hsr : stripR ('\n' :: List.intercalate ['\n'] (t ++ [b])) =
          '\n' :: stripR (List.intercalate ['\n'] (t ++ [b])) := by
        have hne2 : stripR (List.intercalate ['\n'] (t ++ [b])) ≠ [] := by
          apply stripR_ne_nil
          obtain ⟨c, hc, hcw⟩ := hb
          exact ⟨c, mem_intercalate_last c b t hc, hcw⟩
        cases hs : stripR (List.intercalate ['\n'] (t ++ [b])) with
        | nil => exact absurd hs hne2
        | cons d u => rw [stripR_cons, hs]
      rw [List.cons_append, he, intercalate_cons_cons, ← he, List.append_assoc,
        List.singleton_append,
        stripR_append x ('\n' :: List.intercalate ['\n'] (t ++ [b])) hmem,
        hsr, ih]
      have hne3 : (t ++ [stripR b]) ≠ [] := by simp
      cases he2 : t ++ [stripR b] with
      | nil => exact absurd he2 hne3
      | cons z zs =>
        rw [List.cons_append, he2, intercalate_cons_cons, ← he2, List.append_assoc,
          List.singleton_append]

theorem dropWhile_intercalate_cons (h : List Char) (ds : List (List Char))
    (hh : ∃ c ∈ h, pyWs c = false) :
    (List.intercalate ['\n'] (h :: ds)).dropWhile pyWs =
      List.intercalate ['\n'] (h.dropWhile pyWs :: ds) := by
  cases ds with
  | nil => rw [intercalate_single, intercalate_single]
  | cons b t =>
    rw [intercalate_cons_cons, intercalate_cons_cons, List.append_assoc,
      List.append_assoc, dropWhile_append_left h _ hh]

/-! ### Lemmas about the queue parser -/

theorem parseCore_eq (line : List Char) :
    parseCore line =
      if line.isEmpty then none
      else if strJOBID.isPrefixOf line then none
      else if 8 ≤ (splitWs line).length then
        if pyIsdigit ((splitWs line).getD 0 []) then
          some { job_id := (splitWs line).getD 0 [],
                 partition := (splitWs line).getD 1 [],
                 name := (splitWs line).getD 2 [],
                 user := (splitWs line).getD 3 [],
                 state := (splitWs line).getD 4 [],
                 time := (splitWs line).getD 5 [],
                 nodes := (splitWs line).getD 6 [],
                 nodelist := joinSpaces ((splitWs line).drop 7) }
        else none
      else none := rfl

theorem filterMap_eq_map_of_some (f : List Char → Option JobRow)
    (g : List Char → JobRow) (l : List (List Char))
    (h : ∀ x ∈ l, f x = some (g x)) : l.filterMap f = l.map g := by
  induction l with
  | nil => rfl
  | cons a t ih =>
    rw [List.filterMap_cons, h a (List.mem_cons_self a t), List.map_cons,
      ih (fun x hx => h x (List.mem_cons_of_mem a hx))]

theorem parseLine_pyStrip (l : List Char) : parseLine (pyStrip l) = parseLine l := by
  rw [parseLine, parseLine, pyStrip_idem]

theorem parseLine_dropWhile (l : List Char) :
    parseLine (l.dropWhile pyWs) = parseLine l := by
  rw [parseLine, parseLine, pyStrip_dropWhile]

theorem parseLine_stripR (l : List Char) : parseLine (stripR l) = parseLine l := by
  rw [parseLine, parseLine, pyStrip_stripR]

theorem parseLine_header (l : List Char)
    (h : strJOBID.isPrefixOf (pyStrip l) = true) : parseLine l = none := by
  rw [parseLine, parseCore_eq]
  by_cases he : (pyStrip l).isEmpty = true
  · rw [if_pos he]
  · rw [if_neg he, if_pos h]

theorem parseLine_not_digit (l : List Char)
    (h : pyIsdigit ((splitWs (pyStrip l)).headD []) = false) : parseLine l = none := by
  rw [parseLine, parseCore_eq]
  by_cases he : (pyStrip l).isEmpty = true
  · rw [if_pos he]
  · rw [if_neg he]
    by_cases hj : strJOBID.isPrefixOf (pyStrip l) = true
    · rw [if_pos hj]
    · rw [if_neg hj]
      by_cases h8 : 8 ≤ (splitWs (pyStrip l)).length
      · rw [if_pos h8, getD_zero, h]
        simp
      · rw [if_neg h8]

theorem parseLine_some_isdigit (l : List Char) (r : JobRow)
    (h : parseLine l = some r) : pyIsdigit r.job_id = true := by
  rw [parseLine, parseCore_eq] at h
  by_cases h1 : (pyStrip l).isEmpty = true
  · rw [if_pos h1] at h; cases h
  · rw [if_neg h1] at h
    by_cases h2 : strJOBID.isPrefixOf (pyStrip l) = true
    · rw [if_pos h2] at h; cases h
    · rw [if_neg h2] at h
      by_cases h3 : 8 ≤ (splitWs (pyStrip l)).length
      · rw [if_pos h3] at h
        by_cases h4 : pyIsdigit ((splitWs (pyStrip l)).getD 0 []) = true
        · rw [if_pos h4] at h
          injection h with h5
          rw [← h5]
          exact h4
        · rw [if_neg h4] at h; cases h
      · rw [if_neg h3] at h; cases h

theorem pyStrip_ne_nil_of_tokens (l : List Char)
    (h8 : 8 ≤ (splitWs (pyStrip l)).length) : pyStrip l ≠ [] := by
  intro h
  rw [h, splitWs_nil] at h8
  simp at h8

theorem exists_not_ws_of_pyStrip_ne_nil (l : List Char) (h : pyStrip l ≠ []) :
    ∃ c ∈ l, pyWs c = false := by
  by_contra hc
  push_neg at hc
  refine h ((pyStrip_eq_nil_iff l).mpr (fun c hcm => ?_))
  have h1 := hc c hcm
  cases hpw : pyWs c with
  | true => rfl
  | false => exact absurd hpw h1

theorem mem_stripR (x : Char) (l : List Char) (h : x ∈ stripR l) : x ∈ l := by
  induction l with
  | nil => rw [stripR_nil] at h; cases h
  | cons c r ih =>
    cases hr : stripR r with
    | nil =>
      rw [stripR_cons, hr] at h
      cases hw : pyWs c with
      | true => rw [hw] at h; simp at h
      | false =>
        rw [hw] at h
        simp only [Bool.false_eq_true, if_false] at h
        rcases List.mem_cons.mp h with h1 | h1
        · subst h1; exact List.mem_cons_self x r
        · cases h1
    | cons d t =>
      rw [stripR_cons, hr] at h
      rcases List.mem_cons.mp h with h1 | h1
      · subst h1; exact List.mem_cons_self x r
      · exact List.mem_cons_of_mem c (ih (hr ▸ h1))

theorem mem_pyStrip (x : Char) (l : List Char) (h : x ∈ pyStrip l) : x ∈ l := by
  rw [pyStrip] at h
  exact (List.dropWhile_sublist pyWs).subset (mem_stripR x _ h)

theorem strJOBID_eq : strJOBID = ['J', 'O', 'B', 'I', 'D'] := rfl

theorem parseLine_data (l : List Char)
    (h8 : 8 ≤ (splitWs (pyStrip l)).length)
    (hd : pyIsdigit ((splitWs (pyStrip l)).getD 0 []) = true) :
    parseLine l = some (specRowOfLine l) := by
  have hne : pyStrip l ≠ [] := pyStrip_ne_nil_of_tokens l h8
  obtain ⟨c, t, hct⟩ : ∃ c t, pyStrip l = c :: t := by
    cases hl : pyStrip l with
    | nil => exact absurd hl hne
    | cons c t => exact ⟨c, t, rfl⟩
  have hcw : pyWs c = false := pyStrip_head_not_ws l c t hct
  have hhead : (splitWs (pyStrip l)).getD 0 [] =
      c :: t.takeWhile (fun d => !pyWs d) := by
    rw [getD_zero, hct, splitWs_head_of_cons c t hcw]
  have hcd : c.isDigit = true := by
    rw [hhead, pyIsdigit] at hd
    simp only [Bool.and_eq_true, List.all_cons] at hd
    exact hd.2.1
  have hj : ¬ strJOBID.isPrefixOf (pyStrip l) = true := by
    intro hpre
    rw [hct, strJOBID_eq] at hpre
    have h1 : (('J' == c) && List.isPrefixOf ['O', 'B', 'I', 'D'] t) = true := hpre
    have h12 : ('J' == c) = true := (Bool.and_eq_true_iff.mp h1).1
    have h2 : c = 'J' := (beq_iff_eq.mp h12).symm
    rw [h2] at hcd
    exact absurd hcd (by decide)
  have hem : ¬ (pyStrip l).isEmpty = true := by
    rw [hct]; simp
  rw [parseLine, parseCore_eq, if_neg hem, if_neg hj, if_pos h8, if_pos hd]
  rfl

/-- Claim C2: for every well-formed queue-listing text, a header line
(whose stripped form starts with the JOBID label) followed by N
newline-free data lines each having at least 8 whitespace-separated
tokens and an all-digit first token, parsing yields exactly N JobRow
values in input order, where token 0 is the job identifier, tokens 1-6
map positionally to partition, name, user, state, time and nodes, and
tokens 7 onwards are rejoined with single spaces into the node-list
field. -/
theorem c2_queue_parse (header : List Char) (ds : List (List Char))
    (hh1 : '\n' ∉ header)
    (hh2 : strJOBID.isPrefixOf (pyStrip header) = true)
    (hd : ∀ l ∈ ds, '\n' ∉ l ∧ 8 ≤ (splitWs (pyStrip l)).length ∧
      pyIsdigit ((splitWs (pyStrip l)).getD 0 []) = true) :
    populate_job_ids (List.intercalate ['\n'] (header :: ds)) =
      ds.map specRowOfLine ∧
    (populate_job_ids (List.intercalate ['\n'] (header :: ds))).length =
      ds.length := by
  have main : populate_job_ids (List.intercalate ['\n'] (header :: ds)) =
      ds.map specRowOfLine := by
    have hhne : pyStrip header ≠ [] := by
      intro h
      rw [h] at hh2
      exact absurd hh2 (by decide)
    have hhex : ∃ c ∈ header, pyWs c = false :=
      exists_not_ws_of_pyStrip_ne_nil header hhne
    rcases List.eq_nil_or_concat ds with hds | ⟨ds2, dl, hds⟩
    · subst hds
      rw [intercalate_single, populate_job_ids]
      have hnl : '\n' ∉ pyStrip header := fun hm => hh1 (mem_pyStrip _ _ hm)
      rw [splitLines_no_nl _ hnl,
        List.filterMap_cons_none
          (by rw [parseLine_pyStrip, parseLine_header header hh2])]
      rfl
    · rw [List.concat_eq_append] at hds
      subst hds
      have hdlm : dl ∈ ds2 ++ [dl] :=
        List.mem_append_right _ (List.mem_cons_self dl [])
      have hdl := hd dl hdlm
      have hdlne : pyStrip dl ≠ [] := pyStrip_ne_nil_of_tokens dl hdl.2.1
      have hdlex : ∃ c ∈ dl, pyWs c = false :=
        exists_not_ws_of_pyStrip_ne_nil dl hdlne
      rw [populate_job_ids, pyStrip, dropWhile_intercalate_cons header _ hhex,
        show (header.dropWhile pyWs) :: (ds2 ++ [dl]) =
          ((header.dropWhile pyWs) :: ds2) ++ [dl] from rfl,
        stripR_intercalate_concat _ dl hdlex]
      have hnlall : ∀ l ∈ ((header.dropWhile pyWs) :: ds2) ++ [stripR dl],
          '\n' ∉ l := by
        intro l hl
        rcases List.mem_append.mp hl with h1 | h1
        · rcases List.mem_cons.mp h1 with h2 | h2
          · subst h2
            exact fun hm => hh1 ((List.dropWhile_sublist pyWs).subset hm)
          · exact (hd l (List.mem_append_left _ h2)).1
        · have h2 : l = stripR dl := by simpa using h1
          subst h2
          exact fun hm => (hd dl hdlm).1 (mem_stripR _ _ hm)
      rw [splitLines_intercalate _ (by simp) hnlall, List.cons_append,
        List.filterMap_cons_none
          (by rw [parseLine_dropWhile, parseLine_header header hh2]),
        List.filterMap_append]
      have hmap : ds2.filterMap parseLine = ds2.map specRowOfLine :=
        filterMap_eq_map_of_some parseLine specRowOfLine ds2 (fun x hx =>
          parseLine_data x (hd x (List.mem_append_left _ hx)).2.1
            (hd x (List.mem_append_left _ hx)).2.2)
      have hlast : List.filterMap parseLine [stripR dl] = [specRowOfLine dl] := by
        rw [List.filterMap_cons_some
          (by rw [parseLine_stripR, parseLine_data dl hdl.2.1 hdl.2.2])]
        rfl
      rw [hmap, hlast, List.map_append]
      rfl
  exact ⟨main, by rw [main, List.length_map]⟩

/-- Concrete check of c2_queue_parse on the sample listing of spec
section 8: the parser yields exactly one row with the expected fields. -/
theorem c2_queue_parse_witness :
    populate_job_ids (List.intercalate ['\n'] (sampleHeader :: [sampleData])) =
      [specRowOfLine sampleData] ∧
    specRowOfLine sampleData =
      JobRow.mk "123".data "gpu".data "myjob".data "alice".data "R".data
        "1:23".data "2".data "node[01-02]".data := by
  have h := c2_queue_parse sampleHeader [sampleData] (by decide) (by decide)
    (by
      intro l hl
      have : l = sampleData := by simpa using hl
      subst this
      exact ⟨by decide, by decide, by decide⟩)
  constructor
  · rw [h.1]
    rfl
  · decide

/-- Claim C8: every JobRow produced by queue parsing has an all-digit job
identifier, and any input line whose first whitespace token is not
all-digit (the header and continuation lines included) contributes zero
JobRow values: no partial row is ever emitted for such a line. -/
theorem c8_numeric_invariant (text l : List Char) (r : JobRow)
    (hmem : r ∈ populate_job_ids text) :
    pyIsdigit r.job_id = true ∧
    (pyIsdigit ((splitWs (pyStrip l)).headD []) = false → parseLine l = none) := by
  constructor
  · rw [populate_job_ids] at hmem
    obtain ⟨a, _, ha⟩ := List.mem_filterMap.mp hmem
    exact parseLine_some_isdigit a r ha
  · exact parseLine_not_digit l

/-- Concrete check of c8_numeric_invariant: the sample row has an
all-digit identifier and the header line contributes no row. -/
theorem c8_numeric_invariant_witness :
    specRowOfLine sampleData ∈
      populate_job_ids (List.intercalate ['\n'] (sampleHeader :: [sampleData])) ∧
    pyIsdigit (specRowOfLine sampleData).job_id = true ∧
    parseLine sampleHeader = none := by
  have hmem : specRowOfLine sampleData ∈
      populate_job_ids (List.intercalate ['\n'] (sampleHeader :: [sampleData])) := by
    decide
  have h := c8_numeric_invariant
    (List.intercalate ['\n'] (sampleHeader :: [sampleData])) sampleHeader
    (specRowOfLine sampleData) hmem
  exact ⟨hmem, h.1, h.2 (by decide)⟩

/-- Claim C1: submitting a command while a worker is running starts no
second worker: the dispatcher only appends the human-readable busy notice
to the console, the new request is dropped without being queued, and the
in-flight worker together with the recorded command name, which its
completion callback will report for, is untouched. -/
theorem c1_busy_reject (st : MainWindowState) (command_name : List Char)
    (h : dispatchBusy st = true) :
    run_slurm_command st command_name =
      { st with console := st.console ++ [msgAlreadyRunning] } ∧
    (run_slurm_command st command_name).spawned = st.spawned ∧
    (run_slurm_command st command_name).worker = st.worker ∧
    (run_slurm_command st command_name).current_command = st.current_command ∧
    (run_slurm_command st command_name).console =
      st.console ++ [msgAlreadyRunning] := by
  have hmain : run_slurm_command st command_name =
      { st with console := st.console ++ [msgAlreadyRunning] } := by
    rw [run_slurm_command, if_pos h]
  exact ⟨hmain, by rw [hmain], by rw [hmain], by rw [hmain], by rw [hmain]⟩

/-- Concrete check of c1_busy_reject: with a running worker, submitting
again only appends the busy notice. -/
theorem c1_busy_reject_witness :
    run_slurm_command
      (MainWindowState.mk (some (WorkerRef.mk 0 true)) (some strSqueue) [] 1)
      strSqueue =
    MainWindowState.mk (some (WorkerRef.mk 0 true)) (some strSqueue)
      [msgAlreadyRunning] 1 := by
  have h := c1_busy_reject
    (MainWindowState.mk (some (WorkerRef.mk 0 true)) (some strSqueue) [] 1)
    strSqueue (by decide)
  rw [h.1]
  rfl

/-! ### Tailer lemmas -/

theorem updateStream_pos_le (path : Option (List Char)) (r : FsRead)
    (s : TailStream) : s.pos ≤ ((updateStream path r s).1).pos := by
  cases path with
  | none => exact le_refl _
  | some p =>
    cases r with
    | ok content =>
      simp only [updateStream]
      by_cases h : (content.drop s.pos).isEmpty = true
      · rw [if_pos h]
      · rw [if_neg h]
        have h1 : content.drop s.pos ≠ [] := by
          intro he; rw [he] at h; simp at h
        have h2 : s.pos < content.length := by
          by_contra hle
          push_neg at hle
          exact h1 (List.drop_eq_nil_iff.mpr hle)
        exact le_of_lt h2
    | absent => exact le_refl _
    | failed m =>
      simp only [updateStream]
      by_cases h : s.pos = 0
      · rw [if_pos h]
      · rw [if_neg h]

theorem updateStream_pos_pos (path : Option (List Char)) (r : FsRead)
    (s : TailStream) (h : 0 < s.pos) :
    ((updateStream path r s).1).placeholder = s.placeholder ∧
    0 < ((updateStream path r s).1).pos := by
  have hle := updateStream_pos_le path r s
  refine ⟨?_, lt_of_lt_of_le h hle⟩
  cases path with
  | none => rfl
  | some q =>
    cases r with
    | ok content =>
      simp only [updateStream]
      by_cases he : (content.drop s.pos).isEmpty = true
      · rw [if_pos he]
      · rw [if_neg he]
    | absent => rfl
    | failed m2 =>
      simp only [updateStream]
      rw [if_neg (by omega)]

theorem runStream_placeholder (p : Option (List Char)) (evs : List FsRead) :
    ∀ s : TailStream, 0 < s.pos →
      (runStream p evs s).placeholder = s.placeholder := by
  induction evs with
  | nil => intro s _; rfl
  | cons e t ih =>
    intro s h
    have hstep := updateStream_pos_pos p e s h
    have hr : runStream p (e :: t) s = runStream p t ((updateStream p e s).1) := rfl
    rw [hr, ih _ hstep.2, hstep.1]

/-- Claim C9: both per-stream byte offsets of a tail session start at zero
on session creation and are monotonically non-decreasing across every
subsequent poll tick, never reset or decreased, whatever the observed file
contents (shrunk or replaced files included). -/
theorem c9_offsets_monotone (op ep : Option (List Char))
    (evs : List (FsRead × FsRead)) (st : LogTailState) :
    (initLogTail op ep).outS.pos = 0 ∧ (initLogTail op ep).errS.pos = 0 ∧
    st.outS.pos ≤ (runLogs evs st).outS.pos ∧
    st.errS.pos ≤ (runLogs evs st).errS.pos := by
  have mono : ∀ (l : List (FsRead × FsRead)) (x : LogTailState),
      x.outS.pos ≤ (runLogs l x).outS.pos ∧
      x.errS.pos ≤ (runLogs l x).errS.pos := by
    intro l
    induction l with
    | nil => intro x; exact ⟨le_refl _, le_refl _⟩
    | cons e t ih =>
      intro x
      have h1 : x.outS.pos ≤ (update_logs e.1 e.2 x).outS.pos :=
        updateStream_pos_le x.stdout_path e.1 x.outS
      have h2 : x.errS.pos ≤ (update_logs e.1 e.2 x).errS.pos :=
        updateStream_pos_le x.stderr_path e.2 x.errS
      have h3 := ih (update_logs e.1 e.2 x)
      have hr : runLogs (e :: t) x = runLogs t (update_logs e.1 e.2 x) := rfl
      rw [hr]
      exact ⟨le_trans h1 h3.1, le_trans h2 h3.2⟩
  exact ⟨rfl, rfl, (mono evs st).1, (mono evs st).2⟩

/-- Claim C3 counterexample: after two bytes b and newline are appended,
the block appended to the visible text is the right-stripped text, a
single b, not those two bytes, refuting that the M appended bytes are
themselves appended to the visible text. -/
theorem c3_counterexample :
    ((updateStream (some samplePath) (.ok sampleBNl)
        (TailStream.mk 0 [] waitingOutput)).1).chunks = [sampleB] ∧
    [sampleB] ≠ [sampleBNl] ∧
    (updateStream (some samplePath) (.ok sampleBNl)
        (TailStream.mk 0 [] waitingOutput)).2 = sampleBNl := by
  decide

/-- Claim C3 amended: with the stored offset at the end of file, polling
twice with no intervening growth returns empty new-text both times, leaves
the stream untouched, and never moves the offset past the true end; after
exactly M > 0 bytes are appended, one poll returns exactly those M bytes
once, advances the offset to the new end position, and appends exactly one
block to the visible text, namely those bytes with trailing whitespace
removed. -/
theorem c3_tail_poll (p content added : List Char) (s : TailStream)
    (hpos : s.pos = content.length) (hM : added ≠ []) :
    updateStream (some p) (.ok content) s = (s, []) ∧
    updateStream (some p) (.ok content)
      ((updateStream (some p) (.ok content) s).1) = (s, []) ∧
    s.pos ≤ content.length ∧
    (updateStream (some p) (.ok (content ++ added)) s).2 = added ∧
    ((updateStream (some p) (.ok (content ++ added)) s).1).pos =
      (content ++ added).length ∧
    ((updateStream (some p) (.ok (content ++ added)) s).1).chunks =
      s.chunks ++ [stripR added] := by
  have hdrop : content.drop s.pos = [] := by
    rw [hpos]; exact List.drop_length content
  have hfirst : updateStream (some p) (.ok content) s = (s, []) := by
    simp only [updateStream, hdrop]
    rfl
  have hdrop2 : (content ++ added).drop s.pos = added := by
    rw [hpos]; exact List.drop_left content added
  have hane : ¬ added.isEmpty = true := by
    cases added with
    | nil => exact absurd rfl hM
    | cons a t => simp
  have hupd : updateStream (some p) (.ok (content ++ added)) s =
      ({ s with
          chunks := s.chunks ++ [stripR added],
          pos := (content ++ added).length }, added) := by
    simp only [updateStream, hdrop2]
    rw [if_neg hane]
  refine ⟨hfirst, ?_, le_of_eq hpos, by rw [hupd], by rw [hupd], by rw [hupd]⟩
  rw [hfirst]
  exact hfirst

/-- Concrete check of c3_tail_poll: a poll at end of file returns nothing
and a poll after two appended bytes returns exactly those bytes. -/
theorem c3_tail_poll_witness :
    updateStream (some samplePath) (.ok sampleHello)
      (TailStream.mk 5 [sampleHello] waitingOutput) =
      (TailStream.mk 5 [sampleHello] waitingOutput, []) ∧
    (updateStream (some samplePath) (.ok (sampleHello ++ sampleBNl))
      (TailStream.mk 5 [sampleHello] waitingOutput)).2 = sampleBNl := by
  have h := c3_tail_poll samplePath sampleHello sampleBNl
    (TailStream.mk 5 [sampleHello] waitingOutput) (by decide) (by decide)
  exact ⟨h.1, h.2.2.2.1⟩

/-- Claim C6 counterexample: a read failure that arrives after bytes have
already been read from the stream is never surfaced at all: the
placeholder still holds its initial waiting text and not an error message,
refuting that every such failure is surfaced exactly once per session. -/
theorem c6_counterexample :
    ((updateStream (some samplePath) (.failed sampleDenied)
        ((updateStream (some samplePath) (.ok sampleHello)
          (TailStream.mk 0 [] waitingOutput)).1)).1).placeholder =
      waitingOutput ∧
    waitingOutput ≠ errReadingFile ++ sampleDenied ∧
    0 < ((updateStream (some samplePath) (.ok sampleHello)
        (TailStream.mk 0 [] waitingOutput)).1).pos := by
  decide

/-- Claim C6 amended: a missing file silently yields no new text and
leaves the stream state unchanged; any other read failure never escapes
the polling step and is surfaced as an informational placeholder only on
ticks where the stream offset is still zero; once any bytes have been
read, the placeholder never changes again for the rest of the session. -/
theorem c6_error_once (p m : List Char) (s : TailStream) (evs : List FsRead) :
    updateStream (some p) .absent s = (s, []) ∧
    (s.pos = 0 → updateStream (some p) (.failed m) s =
      ({ s with placeholder := errReadingFile ++ m }, [])) ∧
    (s.pos ≠ 0 → updateStream (some p) (.failed m) s = (s, [])) ∧
    (0 < s.pos → (runStream (some p) evs s).placeholder = s.placeholder) := by
  refine ⟨rfl, ?_, ?_, fun h => runStream_placeholder (some p) evs s h⟩
  · intro h0
    simp only [updateStream]
    rw [if_pos h0]
  · intro hne
    simp only [updateStream]
    rw [if_neg hne]

/-- Concrete check of c6_error_once on concrete states. -/
theorem c6_error_once_witness :
    updateStream (some samplePath) .absent (TailStream.mk 0 [] waitingOutput) =
      (TailStream.mk 0 [] waitingOutput, []) ∧
    updateStream (some samplePath) (.failed sampleDenied)
      (TailStream.mk 0 [] waitingOutput) =
      (TailStream.mk 0 [] (errReadingFile ++ sampleDenied), []) ∧
    (runStream (some samplePath) [.failed sampleDenied]
      (TailStream.mk 3 [] waitingOutput)).placeholder = waitingOutput := by
  have h := c6_error_once samplePath sampleDenied
    (TailStream.mk 0 [] waitingOutput) []
  have h2 := c6_error_once samplePath sampleDenied
    (TailStream.mk 3 [] waitingOutput) [.failed sampleDenied]
  exact ⟨h.1, by rw [h.2.1 rfl], h2.2.2.2 (by decide)⟩

/-! ### Executor lemmas -/

theorem isPrefixOf_append_self (p t : List Char) :
    p.isPrefixOf (p ++ t) = true := by
  induction p with
  | nil => simp [List.isPrefixOf]
  | cons a as ih =>
    show ((a == a) && as.isPrefixOf (as ++ t)) = true
    rw [beq_self_eq_true, ih]
    rfl

theorem take_isPrefixOf_of_isPrefixOf (p x t : List Char)
    (h : p.isPrefixOf (x ++ t) = true) :
    (p.take x.length).isPrefixOf x = true := by
  induction x generalizing p with
  | nil => simp [List.isPrefixOf]
  | cons a xs ih =>
    cases p with
    | nil => simp [List.isPrefixOf]
    | cons b bs =>
      have h2 : ((b == a) && bs.isPrefixOf (xs ++ t)) = true := h
      obtain ⟨h3, h4⟩ := Bool.and_eq_true_iff.mp h2
      show ((b == a) && (bs.take xs.length).isPrefixOf xs) = true
      rw [h3, ih bs h4]
      rfl

theorem not_isPrefixOf_append (p x t : List Char)
    (hfalse : (p.take x.length).isPrefixOf x = false) :
    p.isPrefixOf (x ++ t) = false := by
  cases hb : p.isPrefixOf (x ++ t) with
  | false => rfl
  | true => rw [take_isPrefixOf_of_isPrefixOf p x t hb] at hfalse; cases hfalse

/-- Claim C4: for every argument vector and environment, run_command
either returns the captured stdout, stderr and exit status of the one
spawned process (exactly when the program exists, nothing faults and the
duration stays within the fixed 30 unit bound), or fails with exactly one
of three distinguishable errors: a timeout (exactly when the bound is
exceeded, with the child terminated, not left running), a not-found error
when the program is missing, or a catch-all error carrying the underlying
message.  Each produced error message starts with its own distinguishing
prefix and with neither of the other two. -/
theorem c4_executor_taxonomy (command : List (List Char)) (w : ProcWorld) :
    (w.found = true → w.fault = none → w.duration ≤ 30 →
      run_command command w = .ok (w.out, w.err, w.code) ∧
      (subprocessRun 30 w).spawnedProcesses = 1) ∧
    (w.found = true → w.fault = none → 30 < w.duration →
      run_command command w = .error (preTimedOut ++ joinSpaces command) ∧
      (subprocessRun 30 w).stillRunning = false ∧
      preTimedOut.isPrefixOf (preTimedOut ++ joinSpaces command) = true ∧
      preNotFound.isPrefixOf (preTimedOut ++ joinSpaces command) = false ∧
      preUnexpected.isPrefixOf (preTimedOut ++ joinSpaces command) = false) ∧
    (w.found = false →
      run_command command w = .error (preNotFound ++ command.headD []) ∧
      preNotFound.isPrefixOf (preNotFound ++ command.headD []) = true ∧
      preTimedOut.isPrefixOf (preNotFound ++ command.headD []) = false ∧
      preUnexpected.isPrefixOf (preNotFound ++ command.headD []) = false) ∧
    (∀ m, w.found = true → w.fault = some m →
      run_command command w = .error (preUnexpected ++ m) ∧
      preTimedOut.isPrefixOf (preUnexpected ++ m) = false ∧
      preNotFound.isPrefixOf (preUnexpected ++ m) = false ∧
      preUnexpected.isPrefixOf (preUnexpected ++ m) = true) := by
  refine ⟨?_, ?_, ?_, ?_⟩
  · intro hf hfa hd
    have hnd : ¬ 30 < w.duration := by omega
    have hb : subprocessRun 30 w =
        SpawnEffect.mk (.completed w.out w.err w.code) false 1 := by
      simp [subprocessRun, hf, hfa, hnd]
    exact ⟨by rw [run_command, hb], by rw [hb]⟩
  · intro hf hfa hd
    have hb : subprocessRun 30 w = SpawnEffect.mk .timedOut false 1 := by
      simp [subprocessRun, hf, hfa, hd]
    refine ⟨by rw [run_command, hb], by rw [hb],
      isPrefixOf_append_self preTimedOut _,
      not_isPrefixOf_append preNotFound preTimedOut _ (by decide),
      not_isPrefixOf_append preUnexpected preTimedOut _ (by decide)⟩
  · intro hf
    have hb : subprocessRun 30 w = SpawnEffect.mk .fnf false 0 := by
      simp [subprocessRun, hf]
    refine ⟨by rw [run_command, hb],
      isPrefixOf_append_self preNotFound _,
      not_isPrefixOf_append preTimedOut preNotFound _ (by decide),
      not_isPrefixOf_append preUnexpected preNotFound _ (by decide)⟩
  · intro m hf hfa
    have hb : subprocessRun 30 w = SpawnEffect.mk (.failed m) false 1 := by
      simp [subprocessRun, hf, hfa]
    refine ⟨by rw [run_command, hb],
      not_isPrefixOf_append preTimedOut preUnexpected _ (by decide),
      not_isPrefixOf_append preNotFound preUnexpected _ (by decide),
      isPrefixOf_append_self preUnexpected _⟩

/-- Concrete check of c4_executor_taxonomy in all four situations. -/
theorem c4_executor_taxonomy_witness :
    run_command [strSqueue] (ProcWorld.mk true none 1 sampleHello sampleBoom 0) =
      .ok (sampleHello, sampleBoom, 0) ∧
    run_command [strSqueue] (ProcWorld.mk true none 31 sampleHello sampleBoom 0) =
      .error (preTimedOut ++ joinSpaces [strSqueue]) ∧
    run_command [strSqueue] (ProcWorld.mk false none 1 [] [] 0) =
      .error (preNotFound ++ strSqueue) ∧
    run_command [strSqueue] (ProcWorld.mk true (some sampleDenied) 1 [] [] 0) =
      .error (preUnexpected ++ sampleDenied) := by
  refine ⟨?_, ?_, ?_, ?_⟩
  · exact ((c4_executor_taxonomy [strSqueue]
      (ProcWorld.mk true none 1 sampleHello sampleBoom 0)).1 rfl rfl
      (by decide)).1
  · exact ((c4_executor_taxonomy [strSqueue]
      (ProcWorld.mk true none 31 sampleHello sampleBoom 0)).2.1 rfl rfl
      (by decide)).1
  · exact ((c4_executor_taxonomy [strSqueue]
      (ProcWorld.mk false none 1 [] [] 0)).2.2.1 rfl).1
  · exact ((c4_executor_taxonomy [strSqueue]
      (ProcWorld.mk true (some sampleDenied) 1 [] [] 0)).2.2.2
      sampleDenied rfl rfl).1

/-- Claim C7: when the cancel process exits with status zero and empty
standard output, scancel and scancel_all report success, returning a
generated non-empty confirmation message that embeds the job identifier,
respectively the username, rather than the empty output or an error. -/
theorem c7_cancel_empty_output (job_id user stderrText : List Char)
    (d : Nat) (hd : d ≤ 30) :
    scancel job_id (ProcWorld.mk true none d [] stderrText 0) =
      .ok (msgJobPre ++ job_id ++ msgCancelSuf) ∧
    msgJobPre ++ job_id ++ msgCancelSuf ≠ [] ∧
    (∃ a b, msgJobPre ++ job_id ++ msgCancelSuf = a ++ job_id ++ b) ∧
    scancel_all user (ProcWorld.mk true none d [] stderrText 0) =
      .ok (msgAllPre ++ user ++ msgCancelSuf) ∧
    msgAllPre ++ user ++ msgCancelSuf ≠ [] ∧
    (∃ a b, msgAllPre ++ user ++ msgCancelSuf = a ++ user ++ b) := by
  have hnd : ¬ 30 < d := by omega
  have hrc1 : run_command [strScancel, job_id]
      (ProcWorld.mk true none d [] stderrText 0) = .ok ([], stderrText, 0) := by
    have hb : subprocessRun 30 (ProcWorld.mk true none d [] stderrText 0) =
        SpawnEffect.mk (.completed [] stderrText 0) false 1 := by
      simp [subprocessRun, hnd]
    rw [run_command, hb]
  have hrc2 : run_command [strScancel, strDashU, user]
      (ProcWorld.mk true none d [] stderrText 0) = .ok ([], stderrText, 0) := by
    have hb : subprocessRun 30 (ProcWorld.mk true none d [] stderrText 0) =
        SpawnEffect.mk (.completed [] stderrText 0) false 1 := by
      simp [subprocessRun, hnd]
    rw [run_command, hb]
  have hne1 : msgJobPre ++ job_id ++ msgCancelSuf ≠ [] := by
    intro h
    exact absurd (List.append_eq_nil.mp h).2 (by decide)
  have hne2 : msgAllPre ++ user ++ msgCancelSuf ≠ [] := by
    intro h
    exact absurd (List.append_eq_nil.mp h).2 (by decide)
  refine ⟨?_, hne1, ⟨msgJobPre, msgCancelSuf, rfl⟩, ?_, hne2,
    ⟨msgAllPre, msgCancelSuf, rfl⟩⟩
  · rw [scancel, hrc1]
    simp
  · rw [scancel_all, hrc2]
    simp

/-- Concrete check of c7_cancel_empty_output. -/
theorem c7_cancel_empty_output_witness :
    scancel sampleJobId (ProcWorld.mk true none 0 [] sampleBoom 0) =
      .ok (msgJobPre ++ sampleJobId ++ msgCancelSuf) ∧
    scancel_all sampleUser (ProcWorld.mk true none 0 [] sampleBoom 0) =
      .ok (msgAllPre ++ sampleUser ++ msgCancelSuf) := by
  have h := c7_cancel_empty_output sampleJobId sampleUser sampleBoom 0 (by decide)
  exact ⟨h.1, h.2.2.2.1⟩

/-! ### Lemmas about separator splitting and path extraction -/

theorem containsSub_nil (sep : List Char) :
    containsSub sep [] = sep.isEmpty := rfl

theorem containsSub_cons (sep : List Char) (c : Char) (r : List Char) :
    containsSub sep (c :: r) =
      (sep.isPrefixOf (c :: r) || containsSub sep r) := rfl

theorem splitOnF_nil (sep : List Char) (fuel : Nat) :
    splitOnF sep fuel [] = [[]] := by
  cases fuel <;> rfl

theorem splitOnF_succ_cons (sep : List Char) (fuel : Nat) (c : Char)
    (rest : List Char) :
    splitOnF sep (fuel + 1) (c :: rest) =
      if !sep.isEmpty && sep.isPrefixOf (c :: rest) then
        [] :: splitOnF sep fuel ((c :: rest).drop sep.length)
      else
        match splitOnF sep fuel rest with
        | [] => [[c]]
        | p :: ps => (c :: p) :: ps := rfl

theorem splitOnF_ne_nil (sep : List Char) (fuel : Nat) (s : List Char) :
    splitOnF sep fuel s ≠ [] := by
  cases fuel with
  | zero => cases s with
    | nil => simp [splitOnF_nil]
    | cons c r => simp [splitOnF]
  | succ f =>
    cases s with
    | nil => simp [splitOnF_nil]
    | cons c r =>
      rw [splitOnF_succ_cons]
      by_cases h : (!sep.isEmpty && sep.isPrefixOf (c :: r)) = true
      · rw [if_pos h]; simp
      · rw [if_neg h]
        cases hs : splitOnF sep f r with
        | nil => simp
        | cons p ps => simp

theorem splitOnF_not_contains (sep : List Char) (fuel : Nat) (s : List Char)
    (hf : s.length ≤ fuel) (h : containsSub sep s = false) :
    splitOnF sep fuel s = [s] := by
  induction fuel generalizing s with
  | zero =>
    cases s with
    | nil => rfl
    | cons c r => rfl
  | succ f ih =>
    cases s with
    | nil => rfl
    | cons c r =>
      rw [containsSub_cons] at h
      obtain ⟨h1, h2⟩ := Bool.or_eq_false_iff.mp h
      rw [splitOnF_succ_cons, if_neg (by simp [h1])]
      have hr : splitOnF sep f r = [r] :=
        ih r (by simp only [List.length_cons] at hf; omega) h2
      rw [hr]

theorem splitOnL_not_contains (sep s : List Char)
    (h : containsSub sep s = false) : splitOnL sep s = [s] :=
  splitOnF_not_contains sep s.length s (le_refl _) h

theorem splitOnF_two_of_contains (sep : List Char)
    (hsep : sep.isEmpty = false) (fuel : Nat) (s : List Char)
    (hf : s.length ≤ fuel) (h : containsSub sep s = true) :
    2 ≤ (splitOnF sep fuel s).length := by
  induction fuel generalizing s with
  | zero =>
    cases s with
    | nil => rw [containsSub_nil, hsep] at h; cases h
    | cons c r => simp at hf
  | succ f ih =>
    cases s with
    | nil => rw [containsSub_nil, hsep] at h; cases h
    | cons c r =>
      rw [splitOnF_succ_cons]
      by_cases hp : sep.isPrefixOf (c :: r) = true
      · rw [if_pos (by simp [hsep, hp])]
        cases hs : splitOnF sep f ((c :: r).drop sep.length) with
        | nil => exact absurd hs (splitOnF_ne_nil sep f _)
        | cons p ps => simp
      · rw [if_neg (by simp [hp])]
        rw [containsSub_cons] at h
        have h2 : containsSub sep r = true := by
          rcases Bool.or_eq_true_iff.mp h with h3 | h3
          · exact absurd h3 hp
          · exact h3
        have hr := ih r (by simp only [List.length_cons] at hf; omega) h2
        cases hs : splitOnF sep f r with
        | nil => exact absurd hs (splitOnF_ne_nil sep f r)
        | cons p ps =>
          rw [hs] at hr
          simp only [List.length_cons] at hr ⊢
          omega

theorem splitOnL_two_of_contains (sep s : List Char)
    (hsep : sep.isEmpty = false) (h : containsSub sep s = true) :
    2 ≤ (splitOnL sep s).length :=
  splitOnF_two_of_contains sep hsep s.length s (le_refl _) h

theorem markerUpdate_def (marker line : List Char) (acc : Option (List Char)) :
    markerUpdate marker line acc =
      if containsSub marker line then
        if 1 < (splitOnL marker line).length then
          match splitWs ((splitOnL marker line).getD 1 []) with
          | [] => .exn strIndexError
          | t :: _ => .ok (some t)
        else .ok acc
      else .ok acc := rfl

theorem markerUpdate_no (marker line : List Char) (acc : Option (List Char))
    (h : containsSub marker line = false) :
    markerUpdate marker line acc = .ok acc := by
  rw [markerUpdate_def, h]
  simp

theorem markerUpdate_found (marker line : List Char) (acc : Option (List Char))
    (pre : List Char) (c : Char) (rest : List Char)
    (hc : containsSub marker line = true)
    (hs : splitOnL marker line = [pre, c :: rest])
    (hw : pyWs c = false) :
    markerUpdate marker line acc =
      .ok (some (c :: rest.takeWhile (fun d => !pyWs d))) := by
  rw [markerUpdate_def, if_pos hc, hs]
  rw [if_pos (by simp)]
  rw [show ([pre, c :: rest].getD 1 []) = c :: rest from rfl,
    splitWs_cons_not_ws c rest hw]

theorem lineTok_no (marker l : List Char)
    (h : containsSub marker (pyStrip l) = false) : lineTok marker l = none := by
  rw [lineTok, splitOnL_not_contains marker (pyStrip l) h]

theorem lineTok_found (marker l pre : List Char) (c : Char) (rest : List Char)
    (hs : splitOnL marker (pyStrip l) = [pre, c :: rest]) (hw : pyWs c = false) :
    lineTok marker l = some (c :: rest.takeWhile (fun d => !pyWs d)) := by
  rw [lineTok, hs]
  show (splitWs (c :: rest)).head? = some (c :: rest.takeWhile (fun d => !pyWs d))
  rw [splitWs_cons_not_ws c rest hw]
  rfl

theorem markerStep_pair (marker l : List Char) (a : Option (List Char))
    (hg : goodLineB marker l = true) :
    markerUpdate marker (pyStrip l) a =
      .ok ((lineTok marker l).orElse (fun _ => a)) := by
  rw [goodLineB] at hg
  cases hc : containsSub marker (pyStrip l) with
  | false =>
    rw [markerUpdate_no _ _ _ hc, lineTok_no _ _ hc]
    rfl
  | true =>
    rw [hc] at hg
    simp only [Bool.not_true, Bool.false_or] at hg
    cases hs : splitOnL marker (pyStrip l) with
    | nil => rw [hs] at hg; simp at hg
    | cons p1 t1 =>
      cases t1 with
      | nil => rw [hs] at hg; simp at hg
      | cons p2 t2 =>
        cases t2 with
        | cons p3 t3 => rw [hs] at hg; simp at hg
        | nil =>
          cases p2 with
          | nil => rw [hs] at hg; simp at hg
          | cons c rest =>
            rw [hs] at hg
            have hw : pyWs c = false := by
              cases hpw : pyWs c with
              | false => rfl
              | true =>
                rw [show (match [p1, c :: rest] with
                  | [_, c :: _] => !pyWs c
                  | _ => false) = !pyWs c from rfl, hpw] at hg
                simp at hg
            rw [markerUpdate_found marker (pyStrip l) a p1 c rest hc hs hw,
              lineTok_found marker l p1 c rest hs hw]
            rfl

theorem extractStep_good (l : List Char)
    (acc : Option (List Char) × Option (List Char))
    (hOut : goodLineB strStdOutEq l = true)
    (hErr : goodLineB strStdErrEq l = true) :
    extractStep acc l =
      .ok ((lineTok strStdOutEq l).orElse (fun _ => acc.1),
           (lineTok strStdErrEq l).orElse (fun _ => acc.2)) := by
  have h1 := markerStep_pair strStdOutEq l acc.1 hOut
  have h2 := markerStep_pair strStdErrEq l acc.2 hErr
  simp only [extractStep, h1, h2]

theorem extractLoop_cons (a : List Char) (t : List (List Char))
    (acc : Option (List Char) × Option (List Char)) :
    extractLoop (a :: t) acc =
      match extractStep acc a with
      | .exn e => .exn e
      | .ok x => extractLoop t x := rfl

theorem extractLoop_good (ls : List (List Char))
    (h : ∀ l ∈ ls, goodLineB strStdOutEq l = true ∧
      goodLineB strStdErrEq l = true) :
    ∀ acc, extractLoop ls acc =
      .ok (lastSomeD acc.1 (ls.map (lineTok strStdOutEq)),
           lastSomeD acc.2 (ls.map (lineTok strStdErrEq))) := by
  induction ls with
  | nil => intro acc; rfl
  | cons a t ih =>
    intro acc
    have ha := h a (List.mem_cons_self a t)
    have hstep := extractStep_good a acc ha.1 ha.2
    rw [extractLoop_cons, hstep]
    exact ih (fun l hl => h l (List.mem_cons_of_mem a hl)) _

/-- Claim C5 counterexample: on the single detail line
StdOut=/p1 StdOut=/p2, where the marker occurs twice, extraction keeps
the first occurrence's path /p1, not the last occurrence's path /p2 as
the claim states. -/
theorem c5_counterexample :
    extractOutputFiles cxTwoMarkers = .ok (some sampleP1, none) ∧
    sampleP1 ≠ sampleP2 ∧
    ¬ extractOutputFiles cxTwoMarkers = .ok (some sampleP2, none) := by
  decide

/-- Claim C5 amended: path extraction scans lines for the markers; on a
line where a marker occurs (exactly once, per the good-line condition),
the kept path is the first whitespace token after the line's first
occurrence of that marker, with no surrounding whitespace; when several
lines carry a marker the last such line's path wins (the fold keeps the
last some value); a marker absent from a stripped line contributes
nothing for that stream. -/
theorem c5_path_extraction (lines : List (List Char))
    (hne : lines ≠ [])
    (hnl : ∀ l ∈ lines, '\n' ∉ l)
    (hg : ∀ l ∈ lines, goodLineB strStdOutEq l = true ∧
      goodLineB strStdErrEq l = true) :
    extractOutputFiles (List.intercalate ['\n'] lines) =
      .ok (lastSomeD none (lines.map (lineTok strStdOutEq)),
           lastSomeD none (lines.map (lineTok strStdErrEq))) ∧
    (∀ l pre c rest, splitOnL strStdOutEq (pyStrip l) = [pre, c :: rest] →
      pyWs c = false →
      lineTok strStdOutEq l = some (c :: rest.takeWhile (fun d => !pyWs d))) ∧
    (∀ l pre c rest, splitOnL strStdErrEq (pyStrip l) = [pre, c :: rest] →
      pyWs c = false →
      lineTok strStdErrEq l = some (c :: rest.takeWhile (fun d => !pyWs d))) ∧
    (∀ l, containsSub strStdOutEq (pyStrip l) = false →
      lineTok strStdOutEq l = none) ∧
    (∀ l, containsSub strStdErrEq (pyStrip l) = false →
      lineTok strStdErrEq l = none) := by
  refine ⟨?_, fun l pre c rest hs hw => lineTok_found _ l pre c rest hs hw,
    fun l pre c rest hs hw => lineTok_found _ l pre c rest hs hw,
    fun l h => lineTok_no _ l h, fun l h => lineTok_no _ l h⟩
  rw [extractOutputFiles, splitLines_intercalate lines hne hnl,
    extractLoop_good lines hg (none, none)]

/-- Concrete check of c5_path_extraction on the sample detail text of
spec section 8: both paths come back exactly, without the surrounding
whitespace. -/
theorem c5_path_extraction_witness :
    extractOutputFiles (List.intercalate ['\n'] [sampleOutLine, sampleErrLine]) =
      .ok (some sampleOutPath, some sampleErrPath) := by
  have h := c5_path_extraction [sampleOutLine, sampleErrLine] (by simp)
    (by decide) (by decide)
  rw [h.1]
  rfl

/-! ### Totality of extraction -/

theorem markerUpdate_ok (marker l : List Char) (a : Option (List Char))
    (hsep : marker.isEmpty = false) (h : lineMarkerOk marker l = true) :
    ∃ b, markerUpdate marker (pyStrip l) a = .ok b := by
  rw [lineMarkerOk] at h
  cases hc : containsSub marker (pyStrip l) with
  | false => exact ⟨a, markerUpdate_no _ _ _ hc⟩
  | true =>
    rw [hc] at h
    simp only [Bool.not_true, Bool.false_or] at h
    have htok : splitWs ((splitOnL marker (pyStrip l)).getD 1 []) ≠ [] := by
      intro hnil
      have hall := (splitWs_eq_nil_iff _).mp hnil
      obtain ⟨c, hcm, hcw⟩ := List.any_eq_true.mp h
      have hct := hall c hcm
      rw [hct] at hcw
      simp at hcw
    have hlen : 1 < (splitOnL marker (pyStrip l)).length :=
      splitOnL_two_of_contains marker (pyStrip l) hsep hc
    rw [markerUpdate_def, if_pos hc, if_pos hlen]
    cases hts : splitWs ((splitOnL marker (pyStrip l)).getD 1 []) with
    | nil => exact absurd hts htok
    | cons tk tl => exact ⟨some tk, rfl⟩

theorem extractStep_ok (l : List Char)
    (acc : Option (List Char) × Option (List Char))
    (h1 : lineMarkerOk strStdOutEq l = true)
    (h2 : lineMarkerOk strStdErrEq l = true) :
    ∃ b, extractStep acc l = .ok b := by
  obtain ⟨b1, hb1⟩ := markerUpdate_ok strStdOutEq l acc.1 rfl h1
  obtain ⟨b2, hb2⟩ := markerUpdate_ok strStdErrEq l acc.2 rfl h2
  exact ⟨(b1, b2), by simp only [extractStep, hb1, hb2]⟩

theorem extractLoop_ok (ls : List (List Char))
    (h : ∀ l ∈ ls, lineMarkerOk strStdOutEq l = true ∧
      lineMarkerOk strStdErrEq l = true) :
    ∀ acc, ∃ r, extractLoop ls acc = .ok r := by
  induction ls with
  | nil => intro acc; exact ⟨acc, rfl⟩
  | cons a tl ih =>
    intro acc
    obtain ⟨b, hb⟩ := extractStep_ok a acc
      (h a (List.mem_cons_self a tl)).1 (h a (List.mem_cons_self a tl)).2
    obtain ⟨r, hr⟩ := ih (fun l hl => h l (List.mem_cons_of_mem a hl)) b
    exact ⟨r, by simp only [extractLoop_cons, hb, hr]⟩

/-- Claim C10 counterexample: in the detail text StdOut=StdOut=x every
occurrence of either marker is immediately followed by a non-whitespace
character, so the claimed precondition holds, yet the extraction indexes
the first element of an empty token list and raises IndexError. -/
theorem c10_counterexample :
    occImmediateOk strStdOutEq cxMarkerMarker = true ∧
    occImmediateOk strStdErrEq cxMarkerMarker = true ∧
    extractOutputFiles cxMarkerMarker = .exn strIndexError := by
  decide

/-- Claim C10 amended: extraction returns a pair of optional paths without
raising for every detail text in which, on each line and for each marker
occurring there, the piece between the first marker occurrence and the
next occurrence or end of line holds at least one non-whitespace
character; some precondition is necessary: on the bare marker the
extraction indexes the first element of an empty token list and raises
IndexError. -/
theorem c10_extraction_total (t : List Char) (h : extractPre t = true) :
    (∃ r, extractOutputFiles t = .ok r) ∧
    extractOutputFiles cxBareMarker = .exn strIndexError := by
  constructor
  · rw [extractOutputFiles]
    apply extractLoop_ok
    intro l hl
    rw [extractPre] at h
    have h2 := List.all_eq_true.mp h l hl
    exact Bool.and_eq_true_iff.mp h2
  · decide

/-- Concrete check of c10_extraction_total on the sample detail text. -/
theorem c10_extraction_total_witness :
    extractPre (List.intercalate ['\n'] [sampleOutLine, sampleErrLine]) = true ∧
    (∃ r, extractOutputFiles
      (List.intercalate ['\n'] [sampleOutLine, sampleErrLine]) = .ok r) := by
  refine ⟨by decide, (c10_extraction_total _ (by decide)).1⟩
